import Mathlib

/-!
Shallow embedding of `scripts/arxiv_1901/rnn.py` (SuperNNova arXiv-1901
reproduction script): the truncation-window engine, the prediction
accumulator, the accuracy reporting, the training loop's checkpoint /
learning-rate-floor logic, the softmax paths of `forward_pass` /
`eval_pass`, and the pandas aggregation used on sampled predictions.

Machine floats are modelled as exact rationals (`ℚ`) or reals (`ℝ`)
except where IEEE special values (NaN, +inf) are what a claim is about;
there a small inductive `FVal` captures exactly the comparison semantics
the script relies on.
-/

/-! ## `find_idx` (rnn.py lines 40-44)

`np.searchsorted(array, value, side="left")` performs the textbook
binary search returning the left insertion point: the loop keeps the
invariant `array[lo-1] < value <= array[hi]` and halves `[lo, hi)`.
We embed that loop with explicit fuel (the interval shrinks strictly
each step, so `length + 1` units of fuel always suffice); fuel-based
structural recursion keeps the definition kernel-reducible. -/

def searchsortedAux (a : List ℚ) (v : ℚ) : ℕ → ℕ → ℕ → ℕ
  | 0, lo, _hi => lo
  | fuel + 1, lo, hi =>
    if lo < hi then
      if a.getD ((lo + hi) / 2) 0 < v then searchsortedAux a v fuel ((lo + hi) / 2 + 1) hi
      else searchsortedAux a v fuel lo ((lo + hi) / 2)
    else lo

def searchsorted_left (a : List ℚ) (v : ℚ) : ℕ :=
  searchsortedAux a v (a.length + 1) 0 a.length

/-- `find_idx(array, value)` from rnn.py: left-sided `searchsorted`
clamped (redundantly) to the array length. -/
def find_idx (a : List ℚ) (v : ℚ) : ℕ :=
  min (searchsorted_left a v) a.length

/-- `np.cumsum` on a 1-d array: running sums, same length. -/
def cumsum (l : List ℚ) : List ℚ :=
  (l.scanl (· + ·) 0).tail

/-! ### Characterization of the binary search on sorted input -/

/-- Non-decreasing in index form (what `np.searchsorted` assumes). -/
def sortedLe (a : List ℚ) : Prop :=
  ∀ i j, i ≤ j → j < a.length → a.getD i 0 ≤ a.getD j 0

lemma pairwise_sortedLe {a : List ℚ} (h : List.Pairwise (· ≤ ·) a) : sortedLe a := by
  intro i j hij hj
  rcases Nat.lt_or_ge i j with hlt | hge
  · have hi : i < a.length := lt_trans hlt hj
    rw [List.getD_eq_getElem _ _ hi, List.getD_eq_getElem _ _ hj]
    exact List.pairwise_iff_getElem.1 h i j hi hj hlt
  · have heq : i = j := Nat.le_antisymm hij hge
    subst heq
    exact le_refl _

lemma searchsortedAux_range (a : List ℚ) (v : ℚ) :
    ∀ fuel lo hi, hi - lo < fuel → lo ≤ hi →
      lo ≤ searchsortedAux a v fuel lo hi ∧ searchsortedAux a v fuel lo hi ≤ hi := by
  intro fuel
  induction fuel with
  | zero => intro lo hi h _; omega
  | succ n ih =>
    intro lo hi hfuel hle
    rw [searchsortedAux]
    by_cases hlt : lo < hi
    · have hml : lo ≤ (lo + hi) / 2 := by
        have h2 : lo * 2 ≤ lo + hi := by omega
        exact (Nat.le_div_iff_mul_le (by norm_num)).2 h2
      have hmu : (lo + hi) / 2 < hi := by
        have h2 : lo + hi < hi * 2 := by omega
        exact (Nat.div_lt_iff_lt_mul (by norm_num)).2 h2
      rw [if_pos hlt]
      by_cases hv : a.getD ((lo + hi) / 2) 0 < v
      · rw [if_pos hv]
        have := ih ((lo + hi) / 2 + 1) hi (by omega) (by omega)
        omega
      · rw [if_neg hv]
        have := ih lo ((lo + hi) / 2) (by omega) (by omega)
        omega
    · rw [if_neg hlt]
      omega

lemma searchsortedAux_spec (a : List ℚ) (v : ℚ) (hs : sortedLe a) :
    ∀ fuel lo hi, hi - lo < fuel → lo ≤ hi → hi ≤ a.length →
      (∀ j, j < lo → a.getD j 0 < v) →
      (∀ j, hi ≤ j → j < a.length → v ≤ a.getD j 0) →
      (∀ j, j < searchsortedAux a v fuel lo hi → a.getD j 0 < v) ∧
      (∀ j, searchsortedAux a v fuel lo hi ≤ j → j < a.length → v ≤ a.getD j 0) := by
  intro fuel
  induction fuel with
  | zero => intro lo hi h _ _ _ _; omega
  | succ n ih =>
    intro lo hi hfuel hle hlen hleft hright
    rw [searchsortedAux]
    by_cases hlt : lo < hi
    · have hml : lo ≤ (lo + hi) / 2 := by
        have h2 : lo * 2 ≤ lo + hi := by omega
        exact (Nat.le_div_iff_mul_le (by norm_num)).2 h2
      have hmu : (lo + hi) / 2 < hi := by
        have h2 : lo + hi < hi * 2 := by omega
        exact (Nat.div_lt_iff_lt_mul (by norm_num)).2 h2
      rw [if_pos hlt]
      by_cases hv : a.getD ((lo + hi) / 2) 0 < v
      · rw [if_pos hv]
        refine ih ((lo + hi) / 2 + 1) hi (by omega) (by omega) hlen ?_ hright
        intro j hj
        have hj2 : j ≤ (lo + hi) / 2 := by omega
        exact lt_of_le_of_lt (hs j ((lo + hi) / 2) hj2 (by omega)) hv
      · rw [if_neg hv]
        refine ih lo ((lo + hi) / 2) (by omega) (by omega) (by omega) hleft ?_
        intro j hj hjlen
        exact le_trans (not_lt.1 hv) (hs ((lo + hi) / 2) j hj hjlen)
    · rw [if_neg hlt]
      have heq : lo = hi := by omega
      subst heq
      exact ⟨hleft, fun j hj hjlen => hright j hj hjlen⟩

lemma searchsorted_left_lt (a : List ℚ) (v : ℚ) (hs : sortedLe a) :
    ∀ j, j < searchsorted_left a v → a.getD j 0 < v :=
  (searchsortedAux_spec a v hs (a.length + 1) 0 a.length (by omega) (by omega)
    (le_refl _) (fun j hj => absurd hj (by omega)) (fun j hj hjlen => absurd hjlen (by omega))).1

lemma searchsorted_left_ge (a : List ℚ) (v : ℚ) (hs : sortedLe a) :
    ∀ j, searchsorted_left a v ≤ j → j < a.length → v ≤ a.getD j 0 :=
  (searchsortedAux_spec a v hs (a.length + 1) 0 a.length (by omega) (by omega)
    (le_refl _) (fun j hj => absurd hj (by omega)) (fun j hj hjlen => absurd hjlen (by omega))).2

lemma searchsorted_left_le_length (a : List ℚ) (v : ℚ) :
    searchsorted_left a v ≤ a.length :=
  (searchsortedAux_range a v (a.length + 1) 0 a.length (by omega) (by omega)).2

lemma searchsorted_left_mono {a : List ℚ} (hs : sortedLe a) {v1 v2 : ℚ} (h : v1 ≤ v2) :
    searchsorted_left a v1 ≤ searchsorted_left a v2 := by
  by_contra hcon
  push_neg at hcon
  have hlen : searchsorted_left a v2 < a.length :=
    lt_of_lt_of_le hcon (searchsorted_left_le_length a v1)
  have h1 : a.getD (searchsorted_left a v2) 0 < v1 :=
    searchsorted_left_lt a v1 hs _ hcon
  have h2 : v2 ≤ a.getD (searchsorted_left a v2) 0 :=
    searchsorted_left_ge a v2 hs _ (le_refl _) hlen
  linarith

/-- C1: the claim asserts that with `delta_time = [1,2,3]` (elapsed times
`[1,3,6]`) and `reference_time = 0`, offset `0` yields truncation length
`L = 1` (and that equal timestamps are in-bounds).  False: `find_idx`
uses the LEFT insertion point, so the step whose elapsed time equals the
requested time is excluded and offset `0` yields `L = 0`
(out-of-bounds). -/
theorem C1_counterexample :
    find_idx (cumsum [1, 2, 3]) (0 + 0) = 0 ∧ find_idx (cumsum [1, 2, 3]) (0 + 0) ≠ 1 := by
  norm_num [find_idx, searchsorted_left, searchsortedAux, cumsum]

/-- C1 (amended): with `delta_time = [1,2,3]` (elapsed times `[1,3,6]`)
and `reference_time = 0`, the left-biased search gives offset `0` →
`L = 0` (out-of-bounds), offset `3` → `L = 1`, offset `6` → `L = 2`,
offset `10` → `L = 3` (clamped to `T`, in-bounds), offset `-5` → `L = 0`
(out-of-bounds): a step whose elapsed time exactly equals
`reference_time + offset` is EXCLUDED from the kept window. -/
theorem C1_amended :
    find_idx (cumsum [1, 2, 3]) (0 + 0) = 0 ∧
    find_idx (cumsum [1, 2, 3]) (0 + 3) = 1 ∧
    find_idx (cumsum [1, 2, 3]) (0 + 6) = 2 ∧
    find_idx (cumsum [1, 2, 3]) (0 + 10) = 3 ∧
    find_idx (cumsum [1, 2, 3]) (0 + (-5)) = 0 := by
  norm_num [find_idx, searchsorted_left, searchsortedAux, cumsum]

/-- C8: for a fixed example whose cumulative elapsed-time array is
non-decreasing, the truncation length computed by `find_idx` is monotone
in the offset: `o1 ≤ o2` implies
`find_idx times (peak + o1) ≤ find_idx times (peak + o2)`. -/
theorem C8_truncation_monotone (a : List ℚ) (p o1 o2 : ℚ)
    (hs : List.Pairwise (· ≤ ·) a) (h : o1 ≤ o2) :
    find_idx a (p + o1) ≤ find_idx a (p + o2) :=
  min_le_min (searchsorted_left_mono (pairwise_sortedLe hs) (add_le_add_left h p)) (le_refl _)

/-- Witness for C8 at the concrete elapsed times `[1,3,6]`, peak `0`,
offsets `2 ≤ 7`. -/
theorem C8_truncation_monotone_witness :
    (2 : ℚ) ≤ 7 ∧ find_idx [1, 3, 6] (0 + 2) ≤ find_idx [1, 3, 6] (0 + 7) :=
  ⟨by norm_num,
   C8_truncation_monotone [1, 3, 6] 0 2 7 (by norm_num [List.pairwise_cons]) (by norm_num)⟩

/-! ## The batch and the truncated view (rnn.py lines 330-382)

`data` is a dict of `[N, T]`-shaped tensors; we model the five per-step
keys edited by the truncation code (`X_flux`, `X_fluxerr`, `X_time`,
`X_flt`, `X_mask`) as lists of rows.  The remaining keys (`X_target`,
`X_SNID`, `X_meta`) are never touched by the truncation and are not part
of the claims about it. -/

structure Batch where
  flux : List (List ℚ)
  fluxerr : List (List ℚ)
  time : List (List ℚ)
  flt : List (List ℚ)
  mask : List (List Bool)
deriving DecidableEq

/-- All five tensors have shape `[N, T]`. -/
def Batch.wf (b : Batch) (N T : ℕ) : Prop :=
  b.flux.length = N ∧ b.fluxerr.length = N ∧ b.time.length = N ∧
  b.flt.length = N ∧ b.mask.length = N ∧
  (∀ r ∈ b.flux, r.length = T) ∧ (∀ r ∈ b.fluxerr, r.length = T) ∧
  (∀ r ∈ b.time, r.length = T) ∧ (∀ r ∈ b.flt, r.length = T) ∧
  (∀ r ∈ b.mask, r.length = T)

instance (b : Batch) (N T : ℕ) : Decidable (b.wf N T) := by
  unfold Batch.wf; infer_instance

/-- The in-place slice assignment `row[len:] = z` on a 1-d row. -/
def zeroRow {α : Type} : List α → ℕ → α → List α
  | [], _, _ => []
  | _ :: xs, 0, z => z :: zeroRow xs 0 z
  | x :: xs, n + 1, z => x :: zeroRow xs n z

lemma zeroRow_length {α : Type} (row : List α) (len : ℕ) (z : α) :
    (zeroRow row len z).length = row.length := by
  induction row generalizing len with
  | nil => rfl
  | cons x xs ih =>
    cases len with
    | zero => simpa [zeroRow] using ih 0
    | succ m => simpa [zeroRow] using ih m

lemma zeroRow_getD_of_le {α : Type} (row : List α) (len t : ℕ) (z d : α)
    (h : len ≤ t) (ht : t < row.length) : (zeroRow row len z).getD t d = z := by
  induction row generalizing len t with
  | nil => simp at ht
  | cons x xs ih =>
    cases len with
    | zero =>
      cases t with
      | zero => rfl
      | succ t2 => exact ih 0 t2 (by omega) (by simpa using ht)
    | succ m =>
      cases t with
      | zero => omega
      | succ t2 => exact ih m t2 (by omega) (by simpa using ht)

/-- `max(lengths)` over the batch (`max_length` in the code; the block
only runs when some length is `≥ 1`, so the list is non-empty there). -/
def maxLenOf (lengths : List ℕ) : ℕ := lengths.foldr max 0

/-- One tensor key's truncated view: `data_tmp[key] = data_tmp[key][:, :max_length]`
followed by the per-example zeroing `data_tmp[key][idx, max(1, lengths[idx]):] = z`. -/
def truncField {α : Type} (rows : List (List α)) (lengths : List ℕ) (m : ℕ) (z : α) :
    List (List α) :=
  List.zipWith (fun r L => zeroRow (r.take m) (max 1 L) z) rows lengths

/-- The truncated batch built in the offset loop (rnn.py lines 367-382). -/
def truncateBatch (b : Batch) (lengths : List ℕ) : Batch :=
  { flux := truncField b.flux lengths (maxLenOf lengths) 0
    fluxerr := truncField b.fluxerr lengths (maxLenOf lengths) 0
    time := truncField b.time lengths (maxLenOf lengths) 0
    flt := truncField b.flt lengths (maxLenOf lengths) 0
    mask := truncField b.mask lengths (maxLenOf lengths) false }

lemma truncField_getD {α : Type} (rows : List (List α)) (lengths : List ℕ) (m : ℕ)
    (z d : α) (db : List α) (N T n t : ℕ) (hrows : rows.length = N)
    (hlens : lengths.length = N) (hT : ∀ r ∈ rows, r.length = T) (hn : n < N)
    (ht : max 1 (lengths.getD n 0) ≤ t) (htm : t < m) (htT : t < T) :
    ((truncField rows lengths m z).getD n db).getD t d = z := by
  have hzlen : (truncField rows lengths m z).length = N := by
    simp [truncField, List.length_zipWith, hrows, hlens]
  have hnn : n < (truncField rows lengths m z).length := by omega
  rw [List.getD_eq_getElem _ _ hnn]
  have hrn : n < rows.length := by omega
  have hln : n < lengths.length := by omega
  simp only [truncField, List.getElem_zipWith]
  have hTn : (rows[n]).length = T := hT _ (List.getElem_mem hrn)
  have htake : t < ((rows[n]).take m).length := by
    simp [List.length_take]
    omega
  refine zeroRow_getD_of_le _ _ _ _ _ ?_ htake
  rw [List.getD_eq_getElem _ _ hln] at ht
  exact ht

/-- C5: in any truncated batch built for an offset window, every step
index `t` with `max(L_n, 1) ≤ t` inside the kept window (`t` below both
`max(lengths)` and `T`) has its mask entry set to `False` and its flux,
flux-error, delta-time and filter values set to `0`. -/
theorem C5_truncation (b : Batch) (lengths : List ℕ) (N T n t : ℕ)
    (hwf : b.wf N T) (hlen : lengths.length = N) (hn : n < N)
    (ht : max 1 (lengths.getD n 0) ≤ t) (htm : t < maxLenOf lengths) (htT : t < T) :
    ((truncateBatch b lengths).mask.getD n []).getD t true = false ∧
    ((truncateBatch b lengths).flux.getD n []).getD t 1 = 0 ∧
    ((truncateBatch b lengths).fluxerr.getD n []).getD t 1 = 0 ∧
    ((truncateBatch b lengths).time.getD n []).getD t 1 = 0 ∧
    ((truncateBatch b lengths).flt.getD n []).getD t 1 = 0 := by
  obtain ⟨h1, h2, h3, h4, h5, h6, h7, h8, h9, h10⟩ := hwf
  exact ⟨truncField_getD _ _ _ _ _ _ N T n t h5 hlen h10 hn ht htm htT,
         truncField_getD _ _ _ _ _ _ N T n t h1 hlen h6 hn ht htm htT,
         truncField_getD _ _ _ _ _ _ N T n t h2 hlen h7 hn ht htm htT,
         truncField_getD _ _ _ _ _ _ N T n t h3 hlen h8 hn ht htm htT,
         truncField_getD _ _ _ _ _ _ N T n t h4 hlen h9 hn ht htm htT⟩

/-! ## Mutable-store model of the offset loop (rnn.py lines 356-382)

Each offset iteration does `data_tmp = deepcopy(data)` and then edits
`data_tmp` in place (the slice assignments write through views into the
copied tensors, never into `data`).  To make "never mutates the source
batch" a real statement rather than one true by construction, we model
Python references explicitly: a heap maps reference ids to `Batch`
values, `deepcopy` allocates a fresh id holding the same value, and the
in-place edits are writes to the copy's id. -/

/-- `lengths = [find_idx(times[k], peak_MJDs[k] + offset) for k in range(batch_size)]`
with `times = [np.cumsum(t) for t in delta_times]`. -/
def batchLengths (b : Batch) (peaks : List ℚ) (offset : ℚ) : List ℕ :=
  List.zipWith (fun dts p => find_idx (cumsum dts) (p + offset)) b.time peaks

structure Heap where
  mem : ℕ → Batch
  next : ℕ

def Heap.read (h : Heap) (r : ℕ) : Batch := h.mem r

def Heap.write (h : Heap) (r : ℕ) (b : Batch) : Heap :=
  ⟨fun s => if s = r then b else h.mem s, h.next⟩

def Heap.alloc (h : Heap) (b : Batch) : ℕ × Heap :=
  (h.next, ⟨fun s => if s = h.next then b else h.mem s, h.next + 1⟩)

/-- One iteration of the offset loop: compute the per-example truncation
lengths from the source batch; if some example is in-bounds, deep-copy
the source, slice and zero the copy in place, and return the copy's
reference; otherwise do nothing for this window. -/
def processOffset (h : Heap) (src : ℕ) (peaks : List ℚ) (offset : ℚ) : Option ℕ × Heap :=
  let lengths := batchLengths (h.read src) peaks offset
  if lengths.any (fun L => decide (1 ≤ L)) then
    let a := h.alloc (h.read src)
    (some a.1, a.2.write a.1 (truncateBatch (a.2.read a.1) lengths))
  else (none, h)

/-- `for offset in OFFSETS:` — the loop threads the heap through the
per-offset iterations and collects each window's view (if any). -/
def processOffsets : Heap → ℕ → List ℚ → List ℚ → List (Option ℕ) × Heap
  | h, _, _, [] => ([], h)
  | h, src, peaks, o :: os =>
    let x := processOffset h src peaks o
    let y := processOffsets x.2 src peaks os
    (x.1 :: y.1, y.2)

lemma processOffset_spec (h : Heap) (src : ℕ) (peaks : List ℚ) (offset : ℚ) :
    h.next ≤ (processOffset h src peaks offset).2.next ∧
    (∀ r, r < h.next → (processOffset h src peaks offset).2.read r = h.read r) ∧
    (∀ r, (processOffset h src peaks offset).1 = some r → r < (processOffset h src peaks offset).2.next ∧
      (processOffset h src peaks offset).2.read r =
        truncateBatch (h.read src) (batchLengths (h.read src) peaks offset)) := by
  unfold processOffset
  by_cases hg : (batchLengths (h.read src) peaks offset).any (fun L => decide (1 ≤ L))
  · simp only [hg, if_true]
    refine ⟨by simp [Heap.alloc, Heap.write], ?_, ?_⟩
    · intro r hr
      simp only [Heap.alloc, Heap.write, Heap.read]
      rw [if_neg (by omega), if_neg (by omega)]
    · intro r hr
      simp only [Heap.alloc] at hr ⊢
      obtain rfl : h.next = r := Option.some.inj hr
      refine ⟨by simp [Heap.write], ?_⟩
      simp [Heap.write, Heap.read]
  · simp only [hg, if_false]
    exact ⟨le_refl _, fun r _ => rfl, fun r hr => by simp at hr⟩

lemma processOffsets_spec (src : ℕ) (peaks : List ℚ) :
    ∀ (offsets : List ℚ) (h : Heap), src < h.next →
      h.next ≤ (processOffsets h src peaks offsets).2.next ∧
      (∀ r, r < h.next → (processOffsets h src peaks offsets).2.read r = h.read r) ∧
      (∀ i, i < offsets.length → ∀ r,
        (processOffsets h src peaks offsets).1.getD i none = some r →
        (processOffsets h src peaks offsets).2.read r =
          truncateBatch (h.read src) (batchLengths (h.read src) peaks (offsets.getD i 0))) := by
  intro offsets
  induction offsets with
  | nil =>
    intro h hsrc
    exact ⟨le_refl _, fun r _ => rfl, fun i hi => by simp at hi⟩
  | cons o os ih =>
    intro h hsrc
    obtain ⟨hx1, hx2, hx3⟩ := processOffset_spec h src peaks o
    obtain ⟨hy1, hy2, hy3⟩ := ih (processOffset h src peaks o).2 (by omega)
    simp only [processOffsets]
    refine ⟨by omega, ?_, ?_⟩
    · intro r hr
      rw [hy2 r (by omega), hx2 r hr]
    · intro i hi r hr
      cases i with
      | zero =>
        simp only [List.getD_cons_zero] at hr ⊢
        obtain ⟨hrn, hrv⟩ := hx3 r hr
        rw [hy2 r hrn, hrv]
      | succ j =>
        simp only [List.getD_cons_succ] at hr ⊢
        have := hy3 j (by simpa using hi) r hr
        rwa [hx2 src hsrc] at this

/-- C9: evaluating the offset windows never mutates the source batch.
After the whole offset loop, the source reference still holds its
original value, and every window's returned view holds exactly the
truncation of the ORIGINAL source value for that window's offset —
no window observes another window's zeroing or mask edits. -/
theorem C9_no_mutation (h : Heap) (src : ℕ) (peaks : List ℚ) (offsets : List ℚ)
    (hsrc : src < h.next) :
    (processOffsets h src peaks offsets).2.read src = h.read src ∧
    (∀ i, i < offsets.length → ∀ r,
      (processOffsets h src peaks offsets).1.getD i none = some r →
      (processOffsets h src peaks offsets).2.read r =
        truncateBatch (h.read src) (batchLengths (h.read src) peaks (offsets.getD i 0))) := by
  obtain ⟨h1, h2, h3⟩ := processOffsets_spec src peaks offsets h hsrc
  exact ⟨h2 src hsrc, h3⟩

/-- Concrete batch used by witnesses: 2 examples, 3 steps. -/
def exampleBatch : Batch :=
  { flux := [[10, 20, 30], [40, 50, 60]]
    fluxerr := [[1, 2, 3], [4, 5, 6]]
    time := [[1, 2, 3], [5, 1, 1]]
    flt := [[0, 1, 2], [2, 1, 0]]
    mask := [[true, true, true], [true, true, true]] }

/-- Witness for C5: with lengths `[0, 2]`, example `0`, step `1` (inside
the kept window of width `2`), the mask is cleared and all magnitude
fields are zero. -/
theorem C5_truncation_witness :
    exampleBatch.wf 2 3 ∧
    ((truncateBatch exampleBatch [0, 2]).mask.getD 0 []).getD 1 true = false ∧
    ((truncateBatch exampleBatch [0, 2]).flux.getD 0 []).getD 1 1 = 0 := by
  refine ⟨by decide, ?_, ?_⟩
  · exact (C5_truncation exampleBatch [0, 2] 2 3 0 1 (by decide) rfl (by omega)
      (by decide) (by decide) (by omega)).1
  · exact (C5_truncation exampleBatch [0, 2] 2 3 0 1 (by decide) rfl (by omega)
      (by decide) (by decide) (by omega)).2.1

/-! ## The prediction accumulator (rnn.py lines 317-397)

`d_pred` maps each window key to a zero-initialized `[num_elem, S, K]`
array.  Batches are processed sequentially: batch `b` writes the slice
`[start_idx : start_idx + batch_size, iter_]` for every sample index
`iter_ < S`.  For the full-lightcurve key (and `target` / `SNID`) this
happens unconditionally; for an offset key it happens only inside
`if len(inb_idxs) > 0`, with in-bounds rows getting probability vectors
and out-of-bounds rows getting `np.nan`.  We count, for each global slot
`(n, s)` and each key, how many writes land on it over the whole pass. -/

structure TestBatch where
  data : Batch
  peaks : List ℚ
deriving DecidableEq

/-- `batch_size = len(times)`. -/
def TestBatch.size (tb : TestBatch) : ℕ := tb.data.time.length

def TestBatch.lengths (tb : TestBatch) (offset : ℚ) : List ℕ :=
  batchLengths tb.data tb.peaks offset

/-- `len(inb_idxs) > 0` for this batch and offset. -/
def TestBatch.hasInBounds (tb : TestBatch) (offset : ℚ) : Bool :=
  (tb.lengths offset).any (fun L => decide (1 ≤ L))

/-- `num_elem`: total number of test examples over all batches. -/
def totalSize (batches : List TestBatch) : ℕ := (batches.map TestBatch.size).sum

/-- Number of writes landing on slot `(n, s)` of `d_pred["all"]` (and of
`d_pred["target"]`, `d_pred["SNID"]`) when the batches are processed
from running start index `start`. -/
def allWriteCountAux (S n s : ℕ) : List TestBatch → ℕ → ℕ
  | [], _ => 0
  | tb :: rest, start =>
    (if start ≤ n ∧ n < start + tb.size ∧ s < S then 1 else 0) +
    allWriteCountAux S n s rest (start + tb.size)

/-- Number of probability-vector writes landing on slot `(n, s)` of an
offset key (`d_pred[col][start_idx + inb_idxs, iter_] = arr_preds[inb_idxs]`). -/
def probWriteCountAux (offset : ℚ) (S n s : ℕ) : List TestBatch → ℕ → ℕ
  | [], _ => 0
  | tb :: rest, start =>
    (if tb.hasInBounds offset ∧ start ≤ n ∧ n < start + tb.size ∧ s < S ∧
        1 ≤ (tb.lengths offset).getD (n - start) 0 then 1 else 0) +
    probWriteCountAux offset S n s rest (start + tb.size)

/-- Number of NaN-sentinel writes landing on slot `(n, s)` of an offset
key (`d_pred[col][start_idx + oob_idxs, iter_] = np.nan`). -/
def nanWriteCountAux (offset : ℚ) (S n s : ℕ) : List TestBatch → ℕ → ℕ
  | [], _ => 0
  | tb :: rest, start =>
    (if tb.hasInBounds offset ∧ start ≤ n ∧ n < start + tb.size ∧ s < S ∧
        (tb.lengths offset).getD (n - start) 0 = 0 then 1 else 0) +
    nanWriteCountAux offset S n s rest (start + tb.size)

/-- Whether the batch containing global example `n` writes the offset
key at all (its `if len(inb_idxs) > 0` guard holds). -/
def slotWindowWritten : List TestBatch → ℚ → ℕ → Bool
  | [], _, _ => false
  | tb :: rest, offset, n =>
    if n < tb.size then tb.hasInBounds offset else slotWindowWritten rest offset (n - tb.size)

/-- The truncation length computed for global example `n`. -/
def slotLen : List TestBatch → ℚ → ℕ → ℕ
  | [], _, _ => 0
  | tb :: rest, offset, n =>
    if n < tb.size then (tb.lengths offset).getD n 0 else slotLen rest offset (n - tb.size)

lemma allWriteCountAux_zero (S n s : ℕ) :
    ∀ (batches : List TestBatch) (start : ℕ), n < start →
      allWriteCountAux S n s batches start = 0 := by
  intro batches
  induction batches with
  | nil => intro start _; rfl
  | cons tb rest ih =>
    intro start hlt
    simp only [allWriteCountAux]
    rw [if_neg (by omega), ih (start + tb.size) (by omega)]

lemma probWriteCountAux_zero (offset : ℚ) (S n s : ℕ) :
    ∀ (batches : List TestBatch) (start : ℕ), n < start →
      probWriteCountAux offset S n s batches start = 0 := by
  intro batches
  induction batches with
  | nil => intro start _; rfl
  | cons tb rest ih =>
    intro start hlt
    simp only [probWriteCountAux]
    rw [if_neg (by omega), ih (start + tb.size) (by omega)]

lemma nanWriteCountAux_zero (offset : ℚ) (S n s : ℕ) :
    ∀ (batches : List TestBatch) (start : ℕ), n < start →
      nanWriteCountAux offset S n s batches start = 0 := by
  intro batches
  induction batches with
  | nil => intro start _; rfl
  | cons tb rest ih =>
    intro start hlt
    simp only [nanWriteCountAux]
    rw [if_neg (by omega), ih (start + tb.size) (by omega)]

lemma allWriteCountAux_shift (S s : ℕ) (hs : s < S) :
    ∀ (batches : List TestBatch) (start n : ℕ), n < totalSize batches →
      allWriteCountAux S (start + n) s batches start = 1 := by
  intro batches
  induction batches with
  | nil => intro start n hn; simp [totalSize] at hn
  | cons tb rest ih =>
    intro start n hn
    simp only [allWriteCountAux]
    by_cases hlt : n < tb.size
    · rw [if_pos (by omega), allWriteCountAux_zero S (start + n) s rest (start + tb.size) (by omega)]
    · rw [if_neg (by omega)]
      have hrec := ih (start + tb.size) (n - tb.size)
        (by simp [totalSize] at hn ⊢; omega)
      rw [show start + tb.size + (n - tb.size) = start + n by omega] at hrec
      simpa using hrec

lemma probWriteCountAux_shift (offset : ℚ) (S s : ℕ) (hs : s < S) :
    ∀ (batches : List TestBatch) (start n : ℕ), n < totalSize batches →
      probWriteCountAux offset S (start + n) s batches start =
        (if slotWindowWritten batches offset n ∧ 1 ≤ slotLen batches offset n then 1 else 0) := by
  intro batches
  induction batches with
  | nil => intro start n hn; simp [totalSize] at hn
  | cons tb rest ih =>
    intro start n hn
    simp only [probWriteCountAux, slotWindowWritten, slotLen]
    by_cases hlt : n < tb.size
    · simp only [hlt, if_true]
      rw [probWriteCountAux_zero offset S (start + n) s rest (start + tb.size) (by omega)]
      have harg : start + n - start = n := by omega
      rw [harg]
      by_cases hg : (tb.hasInBounds offset = true) ∧ 1 ≤ (tb.lengths offset).getD n 0
      · rw [if_pos ⟨hg.1, by omega, by omega, hs, hg.2⟩, if_pos hg]
      · rw [if_neg (by tauto), if_neg hg]
    · simp only [hlt, if_false]
      rw [if_neg (by omega)]
      have hrec := ih (start + tb.size) (n - tb.size)
        (by simp [totalSize] at hn ⊢; omega)
      rw [show start + tb.size + (n - tb.size) = start + n by omega] at hrec
      simpa using hrec

lemma nanWriteCountAux_shift (offset : ℚ) (S s : ℕ) (hs : s < S) :
    ∀ (batches : List TestBatch) (start n : ℕ), n < totalSize batches →
      nanWriteCountAux offset S (start + n) s batches start =
        (if slotWindowWritten batches offset n ∧ slotLen batches offset n = 0 then 1 else 0) := by
  intro batches
  induction batches with
  | nil => intro start n hn; simp [totalSize] at hn
  | cons tb rest ih =>
    intro start n hn
    simp only [nanWriteCountAux, slotWindowWritten, slotLen]
    by_cases hlt : n < tb.size
    · simp only [hlt, if_true]
      rw [nanWriteCountAux_zero offset S (start + n) s rest (start + tb.size) (by omega)]
      have harg : start + n - start = n := by omega
      rw [harg]
      by_cases hg : (tb.hasInBounds offset = true) ∧ (tb.lengths offset).getD n 0 = 0
      · rw [if_pos ⟨hg.1, by omega, by omega, hs, hg.2⟩, if_pos hg]
      · rw [if_neg (by tauto), if_neg hg]
    · simp only [hlt, if_false]
      rw [if_neg (by omega)]
      have hrec := ih (start + tb.size) (n - tb.size)
        (by simp [totalSize] at hn ⊢; omega)
      rw [show start + tb.size + (n - tb.size) = start + n by omega] at hrec
      simpa using hrec

/-- A single-example batch that is out-of-bounds for offset `0`: its
elapsed time is `[5]` and its reference time is `3`, so
`find_idx([5], 3) = 0 < 1` and `inb_idxs` is empty. -/
def oobBatch : TestBatch :=
  ⟨⟨[[9]], [[1]], [[5]], [[0]], [[true]]⟩, [3]⟩

/-- C2: the claim asserts that over a full pass EVERY offset-key slot is
written exactly once (probability vector or NaN sentinel), with no slot
left at its zero initialization.  False: the offset block is guarded by
`if len(inb_idxs) > 0`, so a batch whose examples are ALL out-of-bounds
for an offset writes nothing — here slot `(0, 0)` of the offset-`0` key
receives zero writes (neither a probability vector nor NaN) even though
the slot is valid (`num_elem = 1`, `S = 1`). -/
theorem C2_counterexample :
    totalSize [oobBatch] = 1 ∧
    probWriteCountAux 0 1 0 0 [oobBatch] 0 + nanWriteCountAux 0 1 0 0 [oobBatch] 0 = 0 := by
  constructor
  · rfl
  · norm_num [probWriteCountAux, nanWriteCountAux, TestBatch.hasInBounds, TestBatch.lengths,
      TestBatch.size, batchLengths, oobBatch, List.zipWith, find_idx, searchsorted_left,
      searchsortedAux, cumsum, List.scanl]

/-- C2 (amended): over a full pass through the test split, every valid
slot `(n, s)` of the full-sequence key (and of `target` / `SNID`) is
written exactly once; for an offset key, the slot is written exactly
once when the batch containing example `n` has at least one in-bounds
example (a probability vector if `L_n ≥ 1`, the NaN sentinel if
`L_n = 0`, never both), and is written zero times — remaining at its
zero initialization — when that batch has no in-bounds example for the
offset. -/
theorem C2_amended (batches : List TestBatch) (offset : ℚ) (S n s : ℕ)
    (hn : n < totalSize batches) (hs : s < S) :
    allWriteCountAux S n s batches 0 = 1 ∧
    probWriteCountAux offset S n s batches 0 =
      (if slotWindowWritten batches offset n ∧ 1 ≤ slotLen batches offset n then 1 else 0) ∧
    nanWriteCountAux offset S n s batches 0 =
      (if slotWindowWritten batches offset n ∧ slotLen batches offset n = 0 then 1 else 0) := by
  have h1 := allWriteCountAux_shift S s hs batches 0 n hn
  have h2 := probWriteCountAux_shift offset S s hs batches 0 n hn
  have h3 := nanWriteCountAux_shift offset S s hs batches 0 n hn
  rw [Nat.zero_add] at h1 h2 h3
  exact ⟨h1, h2, h3⟩

/-- A two-example test batch (reference times `0`) used by witnesses. -/
def inbTestBatch : TestBatch := ⟨exampleBatch, [0, 0]⟩

/-- Witness for C2 (amended): with the concrete two-example batch,
`S = 2`, slot `(0, 1)`, the full-sequence key's slot is written exactly
once. -/
theorem C2_amended_witness :
    0 < totalSize [inbTestBatch] ∧ 1 < 2 ∧
    allWriteCountAux 2 0 1 [inbTestBatch] 0 = 1 :=
  ⟨by decide, by decide, (C2_amended [inbTestBatch] 3 2 0 1 (by decide) (by decide)).1⟩

/-- A one-reference heap holding `exampleBatch` at reference `0`. -/
def exampleHeap : Heap := ⟨fun _ => exampleBatch, 1⟩

/-! ## Offset-window accuracy reporting (rnn.py lines 429-439)

After `g_pred = df_pred.groupby("SNID").median()`, each identifier has
one row holding, per window, its aggregated (median) class-probability
vector — NaN (modelled as `none`) exactly when that window's prediction
was the sentinel — plus its target.  The code selects the window's class
columns together with `target`, applies `.dropna()`, takes the argmax of
the probabilities, and divides the number of matches by `len(g_pred)`
(the TOTAL number of identifiers, not the post-`dropna` count). -/

/-- `np.argmax` on a 1-d array: index of the first maximal entry. -/
def argmaxAux : List ℚ → ℕ → ℕ → ℚ → ℕ
  | [], _, bi, _ => bi
  | x :: xs, i, bi, bv => if bv < x then argmaxAux xs (i + 1) i x else argmaxAux xs (i + 1) bi bv

def argmax : List ℚ → ℕ
  | [] => 0
  | x :: xs => argmaxAux xs 1 0 x

/-- One row of `g_pred` restricted to one offset window: the aggregated
probability vector (`none` = NaN sentinel) and the target label. -/
structure GroupRow where
  pred : Option (List ℚ)
  target : ℕ
deriving DecidableEq

/-- `g_pred[[cols] + ["target"]].dropna()`: rows whose window prediction
is not the sentinel. -/
def keptRows (rows : List GroupRow) : List (List ℚ × ℕ) :=
  rows.filterMap (fun r => r.pred.map (fun p => (p, r.target)))

/-- `acc = (preds == target).sum() / len(g_pred)` for one offset window:
matches among non-sentinel rows divided by the TOTAL identifier count. -/
def windowAccuracy (rows : List GroupRow) : ℚ :=
  ((keptRows rows).countP (fun pt => decide (argmax pt.1 = pt.2)) : ℚ) / (rows.length : ℚ)

/-- Modelled from the claim's words (for comparison with the code): the
fraction is taken over the identifiers REMAINING after dropping the
sentinel ones. -/
def windowAccuracySpec (rows : List GroupRow) : ℚ :=
  ((keptRows rows).countP (fun pt => decide (argmax pt.1 = pt.2)) : ℚ) /
    ((keptRows rows).length : ℚ)

/-- C3: the claim asserts the offset-window accuracy divides by the
number of identifiers remaining after dropping the sentinel ones.
False: with one correct non-sentinel identifier and one sentinel
identifier, the code reports `1/2` (denominator `len(g_pred) = 2`),
while the claimed fraction would be `1`. -/
theorem C3_counterexample :
    windowAccuracy [⟨some [1, 0], 0⟩, ⟨none, 0⟩] = 1 / 2 ∧
    windowAccuracySpec [⟨some [1, 0], 0⟩, ⟨none, 0⟩] = 1 ∧
    windowAccuracy [⟨some [1, 0], 0⟩, ⟨none, 0⟩] ≠
      windowAccuracySpec [⟨some [1, 0], 0⟩, ⟨none, 0⟩] := by
  norm_num [windowAccuracy, windowAccuracySpec, keptRows, List.filterMap_cons,
    List.countP_cons, List.countP_nil, argmax, argmaxAux]

lemma keptRows_count (rows : List GroupRow) :
    (keptRows rows).countP (fun pt => decide (argmax pt.1 = pt.2)) =
      rows.countP (fun r =>
        match r.pred with
        | some p => decide (argmax p = r.target)
        | none => false) := by
  induction rows with
  | nil => rfl
  | cons r rest ih =>
    cases hp : r.pred with
    | none => simpa [keptRows, List.filterMap_cons, List.countP_cons, hp] using ih
    | some p => simpa [keptRows, List.filterMap_cons, List.countP_cons, hp] using ih

/-- C3 (amended): for each offset window the reported accuracy equals
the number of NON-sentinel identifiers whose argmax of the aggregated
probability vector matches the target, divided by the TOTAL number of
identifiers: sentinel identifiers never enter the numerator, but they DO
stay in the denominator (they are counted as incorrect). -/
theorem C3_amended (rows : List GroupRow) :
    windowAccuracy rows =
      (rows.countP (fun r =>
        match r.pred with
        | some p => decide (argmax p = r.target)
        | none => false) : ℚ) / (rows.length : ℚ) := by
  rw [windowAccuracy, keptRows_count]

/-! ## Epoch loop: checkpointing and the learning-rate floor
(rnn.py lines 203, 274-283)

Per epoch the script compares the validation `log_loss` against
`best_loss` (initialized to `float("inf")`) with the float `<`, saving a
checkpoint on strict improvement; then the plateau scheduler (an
external black-box policy, per the spec's scope) produces the current
learning rate and the loop breaks when it is `≤ min_lr`.  Float values
are modelled by `FVal` with IEEE comparison semantics: any comparison
against NaN is false, and `inf < inf` is false. -/

inductive FVal
  | nan
  | fin (q : ℚ)
  | inf
deriving DecidableEq

/-- IEEE `<` on the values arising for a log-loss. -/
def FVal.lt : FVal → FVal → Bool
  | .nan, _ => false
  | _, .nan => false
  | .fin a, .fin b => decide (a < b)
  | .fin _, .inf => true
  | .inf, _ => false

def FVal.nonFinite : FVal → Bool
  | .fin _ => false
  | _ => true

lemma FVal.lt_of_nonFinite (v b : FVal) (h : v.nonFinite = true) : FVal.lt v b = false := by
  cases v <;> cases b <;> simp_all [FVal.nonFinite, FVal.lt]

/-- The epoch loop from epoch `e` with `fuel` epochs remaining and
current best validation loss `best`: returns the number of epochs
actually run and, per epoch run, whether a checkpoint was saved.
`lrAfter e` is the learning rate read from the optimizer after the
scheduler step of epoch `e` (the scheduler is the spec's black-box
policy consuming the metric and producing the rate). -/
def trainAux (minLr : ℚ) (valLoss : ℕ → FVal) (lrAfter : ℕ → ℚ) : ℕ → FVal → ℕ → ℕ × List Bool
  | _, _, 0 => (0, [])
  | e, best, fuel + 1 =>
    let ck := FVal.lt (valLoss e) best
    let best2 := if ck then valLoss e else best
    if lrAfter e ≤ minLr then (1, [ck])
    else
      let rest := trainAux minLr valLoss lrAfter (e + 1) best2 fuel
      (rest.1 + 1, ck :: rest.2)

/-- `for epoch in range(nb_epoch): ... if lr_value <= min_lr: break`. -/
def trainSim (nbEpoch : ℕ) (minLr : ℚ) (valLoss : ℕ → FVal) (lrAfter : ℕ → ℚ) : ℕ × List Bool :=
  trainAux minLr valLoss lrAfter 0 FVal.inf nbEpoch

lemma trainAux_step_stop (minLr : ℚ) (valLoss : ℕ → FVal) (lrAfter : ℕ → ℚ)
    (e : ℕ) (best : FVal) (fuel : ℕ) (h : lrAfter e ≤ minLr) :
    trainAux minLr valLoss lrAfter e best (fuel + 1) = (1, [FVal.lt (valLoss e) best]) := by
  simp only [trainAux]
  rw [if_pos h]

lemma trainAux_step_go (minLr : ℚ) (valLoss : ℕ → FVal) (lrAfter : ℕ → ℚ)
    (e : ℕ) (best : FVal) (fuel : ℕ) (h : ¬lrAfter e ≤ minLr) :
    trainAux minLr valLoss lrAfter e best (fuel + 1) =
      ((trainAux minLr valLoss lrAfter (e + 1)
          (if FVal.lt (valLoss e) best then valLoss e else best) fuel).1 + 1,
        FVal.lt (valLoss e) best ::
          (trainAux minLr valLoss lrAfter (e + 1)
            (if FVal.lt (valLoss e) best then valLoss e else best) fuel).2) := by
  simp only [trainAux]
  rw [if_neg h]

lemma trainAux_le (minLr : ℚ) (valLoss : ℕ → FVal) (lrAfter : ℕ → ℚ) :
    ∀ fuel e best, (trainAux minLr valLoss lrAfter e best fuel).1 ≤ fuel := by
  intro fuel
  induction fuel with
  | zero => intro e best; simp [trainAux]
  | succ n ih =>
    intro e best
    by_cases h : lrAfter e ≤ minLr
    · rw [trainAux_step_stop minLr valLoss lrAfter e best n h]
      omega
    · rw [trainAux_step_go minLr valLoss lrAfter e best n h]
      have := ih (e + 1) (if FVal.lt (valLoss e) best then valLoss e else best)
      simp only []
      omega

lemma trainAux_pos (minLr : ℚ) (valLoss : ℕ → FVal) (lrAfter : ℕ → ℚ) :
    ∀ fuel e best, 0 < fuel → 1 ≤ (trainAux minLr valLoss lrAfter e best fuel).1 := by
  intro fuel
  cases fuel with
  | zero => intro e best h; omega
  | succ n =>
    intro e best _
    by_cases h : lrAfter e ≤ minLr
    · rw [trainAux_step_stop minLr valLoss lrAfter e best n h]
    · rw [trainAux_step_go minLr valLoss lrAfter e best n h]
      simp

lemma trainAux_continue (minLr : ℚ) (valLoss : ℕ → FVal) (lrAfter : ℕ → ℚ) :
    ∀ fuel e best i, i + 1 < (trainAux minLr valLoss lrAfter e best fuel).1 →
      minLr < lrAfter (e + i) := by
  intro fuel
  induction fuel with
  | zero => intro e best i h; simp [trainAux] at h
  | succ n ih =>
    intro e best i h
    by_cases hlr : lrAfter e ≤ minLr
    · rw [trainAux_step_stop minLr valLoss lrAfter e best n hlr] at h
      simp at h
    · rw [trainAux_step_go minLr valLoss lrAfter e best n hlr] at h
      cases i with
      | zero => simpa using not_le.1 hlr
      | succ j =>
        have := ih (e + 1) (if FVal.lt (valLoss e) best then valLoss e else best) j
          (by simp only [] at h; omega)
        rwa [show e + 1 + j = e + (j + 1) by omega] at this

lemma trainAux_stop (minLr : ℚ) (valLoss : ℕ → FVal) (lrAfter : ℕ → ℚ) :
    ∀ fuel e best i, i < fuel → lrAfter (e + i) ≤ minLr →
      (trainAux minLr valLoss lrAfter e best fuel).1 ≤ i + 1 := by
  intro fuel
  induction fuel with
  | zero => intro e best i h _; omega
  | succ n ih =>
    intro e best i hi hlr
    by_cases h0 : lrAfter e ≤ minLr
    · rw [trainAux_step_stop minLr valLoss lrAfter e best n h0]
      omega
    · rw [trainAux_step_go minLr valLoss lrAfter e best n h0]
      cases i with
      | zero => exact absurd (by simpa using hlr) h0
      | succ j =>
        have := ih (e + 1) (if FVal.lt (valLoss e) best then valLoss e else best) j
          (by omega) (by rwa [show e + 1 + j = e + (j + 1) by omega])
        simp only []
        omega

lemma trainAux_full (minLr : ℚ) (valLoss : ℕ → FVal) (lrAfter : ℕ → ℚ) :
    ∀ fuel e best, (∀ i, i < fuel → minLr < lrAfter (e + i)) →
      (trainAux minLr valLoss lrAfter e best fuel).1 = fuel := by
  intro fuel
  induction fuel with
  | zero => intro e best _; simp [trainAux]
  | succ n ih =>
    intro e best hall
    have h0 : minLr < lrAfter e := by simpa using hall 0 (by omega)
    rw [trainAux_step_go minLr valLoss lrAfter e best n (not_le.2 h0)]
    have hrec := ih (e + 1) (if FVal.lt (valLoss e) best then valLoss e else best)
      (fun i hi => by
        have := hall (i + 1) (by omega)
        rwa [show e + (i + 1) = e + 1 + i by omega] at this)
    simp only []
    omega

lemma trainAux_flag (minLr : ℚ) (valLoss : ℕ → FVal) (lrAfter : ℕ → ℚ) :
    ∀ fuel e best i, i < (trainAux minLr valLoss lrAfter e best fuel).1 →
      (valLoss (e + i)).nonFinite = true →
      (trainAux minLr valLoss lrAfter e best fuel).2.getD i true = false := by
  intro fuel
  induction fuel with
  | zero => intro e best i h _; simp [trainAux] at h
  | succ n ih =>
    intro e best i hi hnf
    by_cases hlr : lrAfter e ≤ minLr
    · rw [trainAux_step_stop minLr valLoss lrAfter e best n hlr] at hi ⊢
      simp only [] at hi
      have hz : i = 0 := by omega
      subst hz
      simpa using FVal.lt_of_nonFinite (valLoss e) best (by simpa using hnf)
    · rw [trainAux_step_go minLr valLoss lrAfter e best n hlr] at hi ⊢
      cases i with
      | zero =>
        simpa using FVal.lt_of_nonFinite (valLoss e) best (by simpa using hnf)
      | succ j =>
        have := ih (e + 1) (if FVal.lt (valLoss e) best then valLoss e else best) j
          (by simp only [] at hi; omega)
          (by rwa [show e + 1 + j = e + (j + 1) by omega])
        simpa using this

lemma trainAux_next (minLr : ℚ) (valLoss : ℕ → FVal) (lrAfter : ℕ → ℚ) :
    ∀ fuel e best i, i < (trainAux minLr valLoss lrAfter e best fuel).1 →
      minLr < lrAfter (e + i) → i + 1 < fuel →
      i + 1 < (trainAux minLr valLoss lrAfter e best fuel).1 := by
  intro fuel
  induction fuel with
  | zero => intro e best i h _ _; simp [trainAux] at h
  | succ n ih =>
    intro e best i hi hlr hfuel
    by_cases h0 : lrAfter e ≤ minLr
    · rw [trainAux_step_stop minLr valLoss lrAfter e best n h0] at hi ⊢
      simp only [] at hi
      have hz : i = 0 := by omega
      subst hz
      exact absurd h0 (not_le.2 (by simpa using hlr))
    · rw [trainAux_step_go minLr valLoss lrAfter e best n h0] at hi ⊢
      cases i with
      | zero =>
        have := trainAux_pos minLr valLoss lrAfter n (e + 1)
          (if FVal.lt (valLoss e) best then valLoss e else best) (by omega)
        simp only []
        omega
      | succ j =>
        have := ih (e + 1) (if FVal.lt (valLoss e) best then valLoss e else best) j
          (by simp only [] at hi; omega)
          (by rwa [show e + 1 + j = e + (j + 1) by omega])
          (by omega)
        simp only []
        omega

lemma trainSim_lower (nbEpoch : ℕ) (minLr : ℚ) (valLoss : ℕ → FVal) (lrAfter : ℕ → ℚ) :
    ∀ i, i < nbEpoch → (∀ j, j < i → minLr < lrAfter j) →
      i < (trainSim nbEpoch minLr valLoss lrAfter).1 := by
  intro i
  induction i with
  | zero =>
    intro hi _
    exact trainAux_pos minLr valLoss lrAfter nbEpoch 0 FVal.inf (by omega)
  | succ j ih =>
    intro hi hall
    have hj : j < (trainSim nbEpoch minLr valLoss lrAfter).1 :=
      ih (by omega) (fun k hk => hall k (by omega))
    exact trainAux_next minLr valLoss lrAfter nbEpoch 0 FVal.inf j hj
      (by simpa using hall j (by omega)) hi

/-- C7: the training loop runs at most `nb_epoch` epochs, and its epoch
count is exactly `min(e* + 1, nb_epoch)` where `e*` is the first epoch
whose post-scheduler-step learning rate is `≤ min_lr`: it never runs a
further epoch once the rate has reached or undercut the floor (every
epoch before the last was entered with the rate still above it), it
stops no later than the end of any floor epoch, it terminates at the end
of exactly the FIRST floor epoch when one occurs before the epoch limit,
and it runs exactly `nb_epoch` epochs when the rate never reaches the
floor. -/
theorem C7_termination (nbEpoch : ℕ) (minLr : ℚ) (valLoss : ℕ → FVal) (lrAfter : ℕ → ℚ) :
    (trainSim nbEpoch minLr valLoss lrAfter).1 ≤ nbEpoch ∧
    (∀ i, i + 1 < (trainSim nbEpoch minLr valLoss lrAfter).1 → minLr < lrAfter i) ∧
    (∀ i, i < nbEpoch → lrAfter i ≤ minLr →
      (trainSim nbEpoch minLr valLoss lrAfter).1 ≤ i + 1) ∧
    (∀ i, i < nbEpoch → lrAfter i ≤ minLr → (∀ j, j < i → minLr < lrAfter j) →
      (trainSim nbEpoch minLr valLoss lrAfter).1 = i + 1) ∧
    ((∀ i, i < nbEpoch → minLr < lrAfter i) →
      (trainSim nbEpoch minLr valLoss lrAfter).1 = nbEpoch) := by
  refine ⟨trainAux_le minLr valLoss lrAfter nbEpoch 0 FVal.inf, ?_, ?_, ?_, ?_⟩
  · intro i h
    simpa using trainAux_continue minLr valLoss lrAfter nbEpoch 0 FVal.inf i h
  · intro i hi hlr
    exact trainAux_stop minLr valLoss lrAfter nbEpoch 0 FVal.inf i hi (by simpa using hlr)
  · intro i hi hlr hall
    have hub : (trainSim nbEpoch minLr valLoss lrAfter).1 ≤ i + 1 :=
      trainAux_stop minLr valLoss lrAfter nbEpoch 0 FVal.inf i hi (by simpa using hlr)
    have hlb := trainSim_lower nbEpoch minLr valLoss lrAfter i hi hall
    omega
  · intro hall
    exact trainAux_full minLr valLoss lrAfter nbEpoch 0 FVal.inf
      (fun i hi => by simpa using hall i hi)

/-- Witness for C7: learning rates `4, 2, 1, ...` with floor `1` and
`nb_epoch = 5`: epoch `2` is the first whose rate reaches the floor, and
the loop runs exactly `3` epochs — not fewer, not more. -/
theorem C7_termination_witness :
    2 < 5 ∧ (4 : ℚ) / 2 ^ 2 ≤ 1 ∧ (∀ j, j < 2 → (1 : ℚ) < 4 / 2 ^ j) ∧
    (trainSim 5 1 (fun _ => FVal.fin 1) (fun i => 4 / 2 ^ i)).1 = 2 + 1 :=
  ⟨by norm_num, by norm_num, by intro j hj; interval_cases j <;> norm_num,
   (C7_termination 5 1 (fun _ => FVal.fin 1) (fun i => 4 / 2 ^ i)).2.2.2.1 2
     (by norm_num) (by norm_num) (by intro j hj; interval_cases j <;> norm_num)⟩

/-- C4: the claim asserts that a non-finite validation log-loss aborts
training at that epoch.  False: the script has no finiteness check — on
the concrete run whose epoch-0 validation loss is NaN (learning rate `1`
above the floor `0`, `nb_epoch = 2`), the loop runs both epochs instead
of stopping after epoch 0.  (The no-checkpoint half of the claim does
hold: the epoch-0 checkpoint flag is false, since `nan < best` is
false.) -/
theorem C4_counterexample :
    (trainSim 2 0 (fun e => if e = 0 then FVal.nan else FVal.fin 1) (fun _ => 1)).1 = 2 ∧
    (trainSim 2 0 (fun e => if e = 0 then FVal.nan else FVal.fin 1) (fun _ => 1)).1 ≠ 1 ∧
    (trainSim 2 0 (fun e => if e = 0 then FVal.nan else FVal.fin 1)
      (fun _ => 1)).2.getD 0 true = false := by
  norm_num [trainSim, trainAux, FVal.lt]

/-- C4 (amended): if the validation log-loss at an executed epoch `i` is
non-finite (NaN or +inf), no checkpoint is taken at that epoch — any
IEEE comparison of a non-finite loss against the best loss is false —
but training does NOT abort: whenever the learning rate is still above
the floor and epochs remain, the loop silently continues to epoch
`i + 1`. -/
theorem C4_amended (nbEpoch : ℕ) (minLr : ℚ) (valLoss : ℕ → FVal) (lrAfter : ℕ → ℚ) (i : ℕ)
    (hi : i < (trainSim nbEpoch minLr valLoss lrAfter).1)
    (hnf : (valLoss i).nonFinite = true) :
    (trainSim nbEpoch minLr valLoss lrAfter).2.getD i true = false ∧
    (minLr < lrAfter i → i + 1 < nbEpoch →
      i + 1 < (trainSim nbEpoch minLr valLoss lrAfter).1) := by
  constructor
  · exact trainAux_flag minLr valLoss lrAfter nbEpoch 0 FVal.inf i hi (by simpa using hnf)
  · intro h1 h2
    exact trainAux_next minLr valLoss lrAfter nbEpoch 0 FVal.inf i hi (by simpa using h1) h2

/-- Witness for C4 (amended) on the concrete NaN-at-epoch-0 run. -/
theorem C4_amended_witness :
    0 < (trainSim 2 0 (fun e => if e = 0 then FVal.nan else FVal.fin 1) (fun _ => 1)).1 ∧
    ((if 0 = 0 then FVal.nan else FVal.fin 1).nonFinite = true) ∧
    (trainSim 2 0 (fun e => if e = 0 then FVal.nan else FVal.fin 1)
      (fun _ => 1)).2.getD 0 true = false :=
  ⟨by norm_num [trainSim, trainAux], by decide,
   (C4_amended 2 0 (fun e => if e = 0 then FVal.nan else FVal.fin 1) (fun _ => 1) 0
     (by norm_num [trainSim, trainAux]) (by decide)).1⟩

/-! ## The softmax paths of `forward_pass` and `eval_pass`
(rnn.py lines 47-89)

`forward_pass` turns the model's unnormalized scores into probabilities
with one `softmax(dim=-1)` (line 67) and returns them.  `eval_pass`
collects those per-batch probability matrices, concatenates them, and
then applies `softmax(dim=-1)` AGAIN (line 87).  We embed the
probability path: a score matrix is a list of per-example score rows. -/

noncomputable def softmax (xs : List ℝ) : List ℝ :=
  xs.map (fun x => Real.exp x / (xs.map Real.exp).sum)

/-- Probability output of `forward_pass` on one batch of score rows:
`X_pred = softmax(X_pred, dim=-1)`. -/
noncomputable def forward_pass_probs (scores : List (List ℝ)) : List (List ℝ) :=
  scores.map softmax

/-- Probability output of `eval_pass` over the validation batches: the
per-batch `forward_pass` outputs are concatenated and softmaxed once
more. -/
noncomputable def eval_pass_probs (batches : List (List (List ℝ))) : List (List ℝ) :=
  ((batches.map forward_pass_probs).flatten).map softmax

/-- C6: at model scores `[0, ln 2]` for a single validation example, the
probabilities produced by `eval_pass` differ from the softmax of the
scores (which is what the training pass reports): `eval_pass` applies
the normalized-exponential transform a second time on top of
`forward_pass`, mapping `[1/3, 2/3]` to `[1/(1+e^(1/3)), ...] ≠ [1/3, 2/3]`,
so train and validation metrics are NOT computed on identically derived
probability vectors. -/
theorem C6_double_softmax :
    eval_pass_probs [[[0, Real.log 2]]] ≠ forward_pass_probs [[0, Real.log 2]] := by
  have hsm : softmax [0, Real.log 2] = [1 / 3, 2 / 3] := by
    simp [softmax, Real.exp_zero, Real.exp_log (by norm_num : (0 : ℝ) < 2)]
    norm_num
  have hkey : softmax [(1 : ℝ) / 3, 2 / 3] ≠ [1 / 3, 2 / 3] := by
    intro heq
    have h0 : Real.exp (1 / 3) / (Real.exp (1 / 3) + (Real.exp (2 / 3) + 0)) = 1 / 3 := by
      have := congrArg (fun l => l.headD 0) heq
      simpa [softmax] using this
    have hpos : (0 : ℝ) < Real.exp (1 / 3) + (Real.exp (2 / 3) + 0) := by positivity
    have h3 : 3 * Real.exp (1 / 3) = Real.exp (1 / 3) + (Real.exp (2 / 3) + 0) := by
      field_simp at h0
      linarith
    have h23 : Real.exp (2 / 3 : ℝ) = Real.exp (1 / 3) * Real.exp (1 / 3) := by
      rw [← Real.exp_add]
      norm_num
    have hq : Real.exp (1 / 3) * Real.exp (1 / 3) = 2 * Real.exp (1 / 3) := by
      rw [← h23]
      linarith
    have he2 : Real.exp (1 / 3 : ℝ) = 2 :=
      mul_right_cancel₀ (Real.exp_pos _).ne' hq
    have he : Real.exp 1 = 8 := by
      have hsplit : Real.exp (1 : ℝ) =
          Real.exp (1 / 3) * Real.exp (1 / 3) * Real.exp (1 / 3) := by
        rw [← Real.exp_add, ← Real.exp_add]
        norm_num
      rw [hsplit, he2]
      norm_num
    have hlt := Real.exp_one_lt_d9
    rw [he] at hlt
    norm_num at hlt
  intro h
  have h1 : softmax (softmax [0, Real.log 2]) = softmax [0, Real.log 2] := by
    have := congrArg (fun l => l.headD []) h
    simpa [eval_pass_probs, forward_pass_probs] using this
  rw [hsm] at h1
  exact hkey h1

/-! ## pandas sample standard deviation over inference samples
(rnn.py lines 412-416)

`df_pred.groupby("SNID").std()` uses pandas' default `ddof = 1`
(Bessel-corrected sample standard deviation): for a group with fewer
than two rows the divisor `n - 1` is zero and pandas yields NaN
(modelled as `none`). -/

noncomputable def listMean (xs : List ℝ) : ℝ := xs.sum / xs.length

/-- pandas `GroupBy.std()` on one group's column: `ddof = 1`. -/
noncomputable def pandasStd (xs : List ℝ) : Option ℝ :=
  if 2 ≤ xs.length then
    some (Real.sqrt ((xs.map (fun x => (x - listMean xs) ^ 2)).sum / ((xs.length : ℝ) - 1)))
  else none

/-- C10: the claim asserts that with `nb_inference_samples = 1` the
per-identifier standard deviation is exactly zero.  False: each SNID
group then has a single row, and pandas' `ddof = 1` standard deviation
of a single observation is NaN — a missing value, not zero. -/
theorem C10_counterexample :
    pandasStd [(7 : ℝ) / 10] = none ∧ pandasStd [(7 : ℝ) / 10] ≠ some 0 := by
  constructor
  · simp [pandasStd]
  · simp [pandasStd]

/-- C10 (amended): with `nb_inference_samples = 1`, the per-identifier
standard deviation computed across stochastic samples is the NaN missing
value for every identifier, window and class (a one-row group under
`ddof = 1`), not zero. -/
theorem C10_amended (x : ℝ) : pandasStd [x] = none := by
  simp [pandasStd]

/-- Witness for C9: on the concrete heap, after evaluating the offset
windows `[0, 3]`, reference `0` (the source batch) is unchanged. -/
theorem C9_no_mutation_witness :
    0 < exampleHeap.next ∧
    (processOffsets exampleHeap 0 [0, 0] [0, 3]).2.read 0 = exampleHeap.read 0 :=
  ⟨by decide, (C9_no_mutation exampleHeap 0 [0, 0] [0, 3] (by decide)).1⟩
